import Mathlib

/-!
Verification of `mlens/parallel/_base_functions.py`.

We give a shallow embedding of the module's core helpers and prove the
spec's claims about them:

* `slice_array` embeds `_slice_array` (index addressing over fold specs);
* `assign_predictions` embeds `_assign_predictions` (prediction writer);
* `score_predictions` embeds `_score_predictions`, `fit_est_save` embeds the
  score-and-persist tail of `fit_est`;
* `assemble_t` / `assemble_e` / `assemble` embed `_assemble` and `assemble`;
* `loadLoop` / `load_trans` embed the bounded retry loop of `_load_trans`.

Arrays are embedded as `List` of rows; prediction buffers as functions from
(row, column) coordinates; machine time is discretised so that each
`sleep(s)` advances the clock by `s` units.
-/

namespace MLens

/-- Fold specification as passed for `idx`/`tei` in the Python source: the
string sentinel `'all'`, Python `None`, a plain interval tuple `(a, b)`, or
a tuple of interval tuples `((a, b), ...)`. -/
inductive Idx where
  | all : Idx
  | nothing : Idx
  | range (a b : Int) : Idx
  | scattered (ivs : List (Int × Int)) : Idx
deriving DecidableEq

/-- Python truthiness of the `idx` value (`if idx:` in `_slice_array`):
`None` is falsy, an empty tuple of intervals is falsy, a pair `(a, b)` and a
nonempty tuple of intervals are truthy.  (`'all'` has already been replaced
by `None` at the point this test runs.) -/
def Idx.truthy : Idx → Bool
  | .all => true
  | .nothing => false
  | .range _ _ => true
  | .scattered [] => false
  | .scattered (_ :: _) => true

/-- Python slice-bound normalisation: a negative bound counts from the end
(clamped at 0), a nonnegative bound is clamped at the length. -/
def pySliceIdx (len : Nat) (i : Int) : Nat :=
  if i < 0 then ((len : Int) + i).toNat else min i.toNat len

/-- Python basic slice `x[a:b]` on a list of rows. -/
def pySlice (x : List α) (a b : Int) : List α :=
  ((x.drop (pySliceIdx x.length a)).take (pySliceIdx x.length b - pySliceIdx x.length a))

/-- Numpy integer indexing `x[i]`: a negative index counts from the end;
out-of-range indexing is an error (`none`). -/
def pyGet (x : List α) (i : Int) : Option α :=
  let j := if i < 0 then i + x.length else i
  if h : 0 ≤ j ∧ j < (x.length : Int) then
    some (x.get ⟨j.toNat, by omega⟩)
  else none

/-- Embedding of numpy `arange a b` as a list of integers. -/
def intRange (a b : Int) : List Int :=
  (List.range (b - a).toNat).map (fun k => a + Int.ofNat k)

/-- Which addressing path `_slice_array` took: no slicing at all, a basic
slice (numpy returns a view), or advanced indexing with an explicit index
list (numpy gathers, which always copies). -/
inductive SlicePath where
  | noop : SlicePath
  | view : SlicePath
  | copy : SlicePath
deriving DecidableEq

/-- Python `len` of one interval tuple `(t0, t1)`: always 2.  The source's
`len(idx[0]) > 1` test is applied to the FIRST INTERVAL of a scattered
spec, so it computes this value. -/
def pairLen (_ : Int × Int) : Nat := 2

/-- Embedding of `_slice_array(x, y, idx, r)`.  Returns the sliced `x`, the
sliced `y`, and the addressing path taken; `none` is a runtime indexing
error.  Mirrors the source line by line: `'all'` is replaced by `None`;
falsy `idx` (including the empty interval tuple) skips slicing; a tuple of
intervals takes the advanced-indexing branch when `len(idx[0]) > 1`, and
otherwise collapses `((a, b),)` to `(a, b)`; a plain `(a, b)` tuple is a
basic slice.  The trailing `.view(type=np.ndarray)` casts do not change
row contents and are not modelled. -/
def slice_array (x : List α) (y : Option (List β)) (idx : Idx) (r : Int) :
    Option (List α × Option (List β) × SlicePath) :=
  let idx1 := if idx = Idx.all then Idx.nothing else idx
  if idx1.truthy then
    match idx1 with
    | .scattered (iv0 :: rest) =>
        if 1 < pairLen iv0 then
          -- advanced indexing: gather an explicit index list (copies)
          let inds := (iv0 :: rest).flatMap (fun iv => intRange (iv.1 - r) (iv.2 - r))
          match inds.mapM (pyGet x), y with
          | none, _ => none
          | some x1, none => some (x1, none, .copy)
          | some x1, some ys =>
              match inds.mapM (pyGet ys) with
              | none => none
              | some ys1 => some (x1, some ys1, .copy)
        else
          -- collapse ((a, b),) to (a, b) and use a basic slice (a view)
          some (pySlice x (iv0.1 - r) (iv0.2 - r),
                y.map (fun ys => pySlice ys (iv0.1 - r) (iv0.2 - r)), .view)
    | .range a b =>
        some (pySlice x (a - r) (b - r),
              y.map (fun ys => pySlice ys (a - r) (b - r)), .view)
    | _ => some (x, y, .noop)
  else
    some (x, y, .noop)

/-! ### Prediction matrix writer (`_assign_predictions`) -/

/-- A prediction buffer: `rows` rows (numpy `pred.shape[0]`) of numeric
cells, addressed by a signed row index (numpy wraps negative indices) and a
column number. -/
structure Buffer (α : Type u) where
  rows : Nat
  data : Int → Nat → α

/-- Overwrite one cell of a buffer. -/
def writeCell (b : Buffer α) (i : Int) (j : Nat) (v : α) : Buffer α :=
  { b with data := fun i1 j1 => if i1 = i ∧ j1 = j then v else b.data i1 j1 }

/-- Perform a list of cell writes left to right. -/
def writeCells (b : Buffer α) (ws : List ((Int × Nat) × α)) : Buffer α :=
  ws.foldl (fun acc wv => writeCell acc wv.1.1 wv.1.2 wv.2) b

/-- Numpy fancy-index normalisation against `rows` rows: wrap a negative
index, error when out of range. -/
def numpyIdx (rows : Nat) (i : Int) : Option Int :=
  let j := if i < 0 then i + rows else i
  if 0 ≤ j ∧ j < (rows : Nat) then some j else none

/-- The row indices of a buffer with `rows` rows selected by a basic slice
`slice(a, b)` (clamped like a Python slice). -/
def sliceTargets (rows : Nat) (a b : Int) : List Int :=
  (List.range (pySliceIdx rows b - pySliceIdx rows a)).map
    (fun k => Int.ofNat (pySliceIdx rows a + k))

/-- The buffer row indices `_assign_predictions` targets for a fold spec
`tei` on a buffer of `rows` rows when the full dataset has `n` rows: the
source computes `r = n - pred.shape[0]` and then either slices
(`slice(t0 - r, t1 - r)`, also for a single-interval scattered spec, which
it collapses) or gathers an explicit index list (`len(tei) > 1`).  `'all'`
selects every buffer row; `None` or an empty interval tuple is a runtime
error (`tei[0]` raises). -/
def assignTargets (tei : Idx) (rows : Nat) (n : Int) : Option (List Int) :=
  let r := n - (rows : Int)
  match tei with
  | .all => some ((List.range rows).map Int.ofNat)
  | .nothing => none
  | .range a b => some (sliceTargets rows (a - r) (b - r))
  | .scattered [] => none
  | .scattered [iv] => some (sliceTargets rows (iv.1 - r) (iv.2 - r))
  | .scattered l => (l.flatMap (fun iv => intRange (iv.1 - r) (iv.2 - r))).mapM (numpyIdx rows)

/-- The prediction array `p`: one-dimensional (a vector, assigned to a
single column) or two-dimensional with width `w = p.shape[1]` (assigned to
`w` consecutive columns).  Entries are read positionally. -/
inductive Preds (α : Type u) where
  | one (p : Nat → α) : Preds α
  | two (p : Nat → Nat → α) (w : Nat) : Preds α

/-- The column width an assignment covers: 1 for a vector, `p.shape[1]`
for a matrix. -/
def predsWidth : Preds α → Nat
  | .one _ => 1
  | .two _ w => w

/-- The value written for the `k`-th targeted row at column offset `jo`. -/
def predsVal : Preds α → Nat → Nat → α
  | .one p, k, _ => p k
  | .two p _, k, jo => p k jo

/-- Cell writes for a vector `p`: the `k`-th target row gets `p k` in
column `col`. -/
def writeRows (col : Nat) (p : Nat → α) : List Int → Nat → List ((Int × Nat) × α)
  | [], _ => []
  | i :: ts, k => ((i, col), p k) :: writeRows col p ts (k + 1)

/-- Cell writes for a matrix `p` of width `w`: the `k`-th target row gets
row `k` of `p` in columns `[col, col + w)`. -/
def writeRows2 (col w : Nat) (p : Nat → Nat → α) : List Int → Nat → List ((Int × Nat) × α)
  | [], _ => []
  | i :: ts, k =>
      ((List.range w).map (fun j => ((i, col + j), p k j))) ++ writeRows2 col w p ts (k + 1)

/-- The write list for prediction array `p` over target rows `ts` starting
at column `col`. -/
def writeList (ts : List Int) (col : Nat) : Preds α → List ((Int × Nat) × α)
  | .one p => writeRows col p ts 0
  | .two p w => writeRows2 col w p ts 0

/-- Embedding of `_assign_predictions(pred, p, tei, col, n)`.  For the
`'all'` sentinel the source runs `pred[:, col] = p`, which writes column
`col` for every buffer row when `p` is a vector and is a numpy broadcast
error when `p` is a matrix.  Otherwise it computes `r = n - pred.shape[0]`,
resolves the target rows (collapsing a single-interval scattered spec to a
slice), and assigns `pred[idx, col] = p` or
`pred[(idx, slice(col, col + p.shape[1]))] = p`. -/
def assign_predictions (pred : Buffer α) (p : Preds α) (tei : Idx) (col : Nat) (n : Int) :
    Option (Buffer α) :=
  if tei = Idx.all then
    match p with
    | .one q =>
        some (writeCells pred (writeList ((List.range pred.rows).map Int.ofNat) col
          (.one q)))
    | .two _ _ => none
  else
    match assignTargets tei pred.rows n with
    | none => none
    | some ts => some (writeCells pred (writeList ts col p))

/-! ### Scoring, the estimator-fit cache write, and assembly -/

variable {ν : Type} {τ ε σt : Type}

/-- The warning `_score_predictions` emits when the scorer raises: it names
the layer, the instance, and the exception details. -/
structure ScoreWarning where
  layer : String
  instName : String
  details : String
deriving DecidableEq

/-- Embedding of `_score_predictions(y, p, scorer, name, inst_name)`: with
no scorer the score is `None`; a raising scorer is caught and recorded as a
warning, leaving the score `None`. -/
def score_predictions (y p : ν) (scorer : Option (ν → ν → Except String Int))
    (name instName : String) : Option Int × List ScoreWarning :=
  match scorer with
  | none => (none, [])
  | some sc =>
      match sc y p with
      | .ok s => (some s, [])
      | .error e => (none, [⟨name, instName, e⟩])

/-- Embedding of `os.path.join` for a relative file name. -/
def pathJoin (dir f : String) : String := dir ++ "/" ++ f

/-- Python `'%s' % v` for an optional string (the null case prints as
`"None"`). -/
def pyStr : Option String → String
  | none => "None"
  | some s => s

/-- Cache path of a case's fitted transformer list (`'%s__t' % case`). -/
def tKey (dir : String) (case : Option String) : String :=
  pathJoin dir (pyStr case ++ "__t")

/-- Cache path of an estimator bundle (`'%s__%s__e' % (case, inst_name)`). -/
def eKey (dir : String) (case : Option String) (nm : String) : String :=
  pathJoin dir (pyStr case ++ "__" ++ nm ++ "__e")

/-- The pickled estimator bundle `(inst_name, inst, idx, s)` written by
`fit_est`: `loaded[:-1]` is `(name, est, idx)` and `loaded[-1]` is the
score. -/
structure EstBundle (ε : Type u) where
  name : String
  est : ε
  idx : Option Idx × Nat
  score : Option Int
deriving DecidableEq

/-- Embedding of the tail of `fit_est` after the held-out predictions `p`
have been produced: score them (recovering a raising scorer as a warning)
and pickle `(inst_name, inst, (tei, col), s)` to
`dir/'%s__%s__e' % (case, inst_name)`.  Returns the written (path, bundle)
pair and the warnings emitted. -/
def fit_est_save (dir : String) (case : Option String) (instName : String) (inst : ε)
    (tei : Idx) (col : Nat) (scorer : Option (ν → ν → Except String Int))
    (name : String) (y p : ν) : (String × EstBundle ε) × List ScoreWarning :=
  let sw := score_predictions y p scorer name instName
  ((eKey dir case instName,
    { name := instName, est := inst, idx := (some tei, col), score := sw.1 }), sw.2)

/-- The on-disk cache the assembler reads: transformer files keyed by their
path, estimator files keyed by their path.  `none` models a missing file
(`pickle_load` raising). -/
structure Cache (τ ε : Type u) where
  tfile : String → Option τ
  efile : String → Option (EstBundle ε)

/-- The composite score label `'<case>___<name>'`, or `'___<name>'` when
the case is `None` (`_assemble`'s `case` variable). -/
def scoreLabel (case : Option String) (nm : String) : String :=
  match case with
  | some c => c ++ "___" ++ nm
  | none => "___" ++ nm

/-- Embedding of `_assemble(dir, instance_list, 't')`: `None` input returns
`None`; otherwise each case's transformer list is loaded from
`dir/'%s__t' % case`.  The outer `Option` is a load failure. -/
def assemble_t (dir : String) (cache : Cache τ ε) :
    Option (List (Option String)) → Option (Option (List (Option String × τ)))
  | none => some none
  | some cs =>
      (cs.mapM (fun c => (cache.tfile (tKey dir c)).map (fun v => (c, v)))).map some

/-- Embedding of `_assemble(dir, instance_list, 'e')`: for each case and
each configured instance name, load the bundle at
`dir/'%s__%s__e' % (case, name)`; accumulate `(case, loaded[:-1])` into the
estimator list and `(label, loaded[-1])` into the score list. -/
def assemble_e (dir : String) (cache : Cache τ ε)
    (elist : List (Option String × List String)) :
    Option (List (Option String × (String × ε × (Option Idx × Nat))) ×
      List (String × Option Int)) :=
  match elist.mapM (fun ce => ce.2.mapM (fun nm =>
      (cache.efile (eKey dir ce.1 nm)).map
        (fun b => ((ce.1, (b.name, b.est, b.idx)), (scoreLabel ce.1 nm, b.score))))) with
  | none => none
  | some parts =>
      let flat := parts.flatten
      some (flat.map (fun pr => pr.1), flat.map (fun pr => pr.2))

/-- The layer state the assembler installs: `preprocessing_`,
`estimators_`, `scores_`. -/
structure LayerState (τ ε σt : Type u) where
  preprocessing_ : Option (List (Option String × τ))
  estimators_ : List (Option String × (String × ε × (Option Idx × Nat)))
  scores_ : Option σt
deriving DecidableEq

/-- Embedding of `assemble(inst)`: overwrite `preprocessing_` and
`estimators_` from the cache, and overwrite `scores_` with
`_build_scores(s)` only when the layer has a scorer and
`layer.cls is not 'full'` (otherwise the old `scores_` is kept).
`buildScores` stands for the external `inst._build_scores`. -/
def assemble (dir : String) (cache : Cache τ ε) (tlist : Option (List (Option String)))
    (elist : List (Option String × List String)) (scorerPresent : Bool) (cls : String)
    (buildScores : List (String × Option Int) → σt) (st : LayerState τ ε σt) :
    Option (LayerState τ ε σt) :=
  match assemble_t dir cache tlist with
  | none => none
  | some p =>
      match assemble_e dir cache elist with
      | none => none
      | some es =>
          some { preprocessing_ := p, estimators_ := es.1,
                 scores_ := if scorerPresent = true ∧ cls ≠ "full" then some (buildScores es.2)
                            else st.scores_ }

/-! ### The cache handoff wait (`_load_trans`) -/

/-- The error message `_load_trans` raises on a fatal timeout, naming the
missing path and the wait ceiling and giving remediation guidance. -/
def cacheTimeoutMsg (path : String) (lim : Nat) : String :=
  "The file " ++ path ++ " cannot be found after " ++ toString lim ++
  " seconds of waiting. Check that time to fit transformers is " ++
  "sufficiently fast to complete fitting before fitting estimators. " ++
  "Consider reducing the preprocessing intensity in the ensemble, or " ++
  "increase the __lim__ attribute to wait extend period of waiting on " ++
  "transformation to complete."

/-- Outcome of the bounded wait: the transformer file was loaded after a
total wait (with the number of warnings emitted so far), or the job was
aborted with a `ParallelProcessingError` after a total wait. -/
inductive LoadResult where
  | success (wait warns : Nat) : LoadResult
  | timeout (msg : String) (wait warns : Nat) : LoadResult
deriving DecidableEq

/-- One discretised execution of `_load_trans`'s polling loop.  State:
`fuel` (shallow-embedding step bound; `none` means the bound was reached),
`t` the clock, `e` the elapsed time since `ts` was (re)set, `w` the
warnings emitted, `ro` the local `raise_on_exception` flag.  Each
iteration checks availability, sleeps `s`, and on breaching `lim` either
raises (if `ro`) or warns once, flips `ro` to true, and resets the elapsed
counter. -/
def loadLoop (avail : Nat → Bool) (path : String) (s lim : Nat) :
    Nat → Nat → Nat → Nat → Bool → Option LoadResult
  | 0, _, _, _, _ => none
  | fuel + 1, t, e, w, ro =>
      if avail t then some (.success t w)
      else
        if lim < e + s then
          if ro then some (.timeout (cacheTimeoutMsg path lim) (t + s) w)
          else loadLoop avail path s lim fuel (t + s) 0 (w + 1) true
        else loadLoop avail path s lim fuel (t + s) (e + s) w ro

/-- Embedding of `_load_trans(dir, case, ivals, raise_on_exception)` with
retry interval `s` and ceiling `lim`: poll from time 0 with no warnings
emitted. -/
def load_trans (avail : Nat → Bool) (path : String) (s lim : Nat) (ro : Bool)
    (fuel : Nat) : Option LoadResult :=
  loadLoop avail path s lim fuel 0 0 0 ro

/-! ### Lemmas about cell writes -/

theorem writeCells_append (b : Buffer α) (l1 l2 : List ((Int × Nat) × α)) :
    writeCells b (l1 ++ l2) = writeCells (writeCells b l1) l2 := by
  simp [writeCells, List.foldl_append]

theorem writeCells_not_mem (ws : List ((Int × Nat) × α)) :
    ∀ (b : Buffer α) (i : Int) (j : Nat),
      (i, j) ∉ ws.map (fun wv => wv.1) → (writeCells b ws).data i j = b.data i j := by
  induction ws with
  | nil => intro b i j _; rfl
  | cons wv ws ih =>
      intro b i j h
      simp only [List.map_cons, List.mem_cons] at h
      push_neg at h
      have h2 : (writeCells (writeCell b wv.1.1 wv.1.2 wv.2) ws).data i j =
          (writeCell b wv.1.1 wv.1.2 wv.2).data i j := ih _ i j h.2
      have h3 : (writeCell b wv.1.1 wv.1.2 wv.2).data i j = b.data i j := by
        simp only [writeCell]
        have : ¬(i = wv.1.1 ∧ j = wv.1.2) := by
          intro hc
          exact h.1 (by cases wv with | mk k v => cases k with | mk a c =>
            simp_all)
        simp [this]
      calc (writeCells b (wv :: ws)).data i j
          = (writeCells (writeCell b wv.1.1 wv.1.2 wv.2) ws).data i j := rfl
        _ = b.data i j := by rw [h2, h3]

theorem writeCells_mem (ws : List ((Int × Nat) × α)) :
    ∀ (b : Buffer α) (wv : (Int × Nat) × α),
      (ws.map (fun p => p.1)).Nodup → wv ∈ ws →
      (writeCells b ws).data wv.1.1 wv.1.2 = wv.2 := by
  induction ws with
  | nil => intro b wv _ hm; cases hm
  | cons hd ws ih =>
      intro b wv hnd hm
      have hstep : writeCells b (hd :: ws) = writeCells (writeCell b hd.1.1 hd.1.2 hd.2) ws := rfl
      simp only [List.map_cons, List.nodup_cons] at hnd
      rcases List.mem_cons.1 hm with heq | hmem
      · subst heq
        have hnot : (wv.1.1, wv.1.2) ∉ ws.map (fun p => p.1) := by
          have := hnd.1
          simpa using this
        rw [hstep, writeCells_not_mem ws _ _ _ hnot]
        simp [writeCell]
      · rw [hstep]
        exact ih _ wv hnd.2 hmem

theorem writeRows_keys (col : Nat) (p : Nat → α) :
    ∀ (ts : List Int) (k0 : Nat) (i : Int) (j : Nat),
      (i, j) ∈ (writeRows col p ts k0).map (fun wv => wv.1) → i ∈ ts ∧ j = col := by
  intro ts
  induction ts with
  | nil => intro k0 i j h; simp [writeRows] at h
  | cons t ts ih =>
      intro k0 i j h
      simp only [writeRows, List.map_cons, List.mem_cons] at h
      rcases h with h | h
      · rw [Prod.mk.injEq] at h
        obtain ⟨rfl, rfl⟩ := h
        simp
      · rcases ih (k0 + 1) i j h with ⟨h1, h2⟩
        exact ⟨List.mem_cons_of_mem _ h1, h2⟩

theorem writeRows2_keys (col w : Nat) (p : Nat → Nat → α) :
    ∀ (ts : List Int) (k0 : Nat) (i : Int) (j : Nat),
      (i, j) ∈ (writeRows2 col w p ts k0).map (fun wv => wv.1) →
      i ∈ ts ∧ col ≤ j ∧ j < col + w := by
  intro ts
  induction ts with
  | nil => intro k0 i j h; simp [writeRows2] at h
  | cons t ts ih =>
      intro k0 i j h
      simp only [writeRows2, List.map_append, List.mem_append, List.map_map] at h
      rcases h with h | h
      · simp only [List.mem_map, List.mem_range, Function.comp] at h
        rcases h with ⟨jo, hjo, hkey⟩
        rw [Prod.mk.injEq] at hkey
        obtain ⟨rfl, rfl⟩ := hkey
        exact ⟨by simp, by omega, by omega⟩
      · rcases ih (k0 + 1) i j h with ⟨h1, h2⟩
        exact ⟨List.mem_cons_of_mem _ h1, h2⟩

theorem writeRows_placement (col : Nat) (p : Nat → α) :
    ∀ (ts : List Int) (b : Buffer α) (k0 k : Nat), ts.Nodup → k < ts.length →
      (writeCells b (writeRows col p ts k0)).data (ts.getD k 0) col = p (k0 + k) := by
  intro ts
  induction ts with
  | nil => intro b k0 k _ hk; simp at hk
  | cons t ts ih =>
      intro b k0 k hnd hk
      have hstep : writeCells b (writeRows col p (t :: ts) k0) =
          writeCells (writeCell b t col (p k0)) (writeRows col p ts (k0 + 1)) := rfl
      rcases List.nodup_cons.1 hnd with ⟨hnm, hnd2⟩
      match k with
      | 0 =>
          have hnot : (t, col) ∉ (writeRows col p ts (k0 + 1)).map (fun wv => wv.1) := by
            intro hmem
            exact hnm (writeRows_keys col p ts (k0 + 1) t col hmem).1
          have hgd : ((t :: ts).getD 0 0) = t := rfl
          rw [hgd, hstep, writeCells_not_mem _ _ _ _ hnot]
          simp [writeCell]
      | k + 1 =>
          have : ((t :: ts).getD (k + 1) 0) = ts.getD k 0 := by simp [List.getD]
          rw [this, hstep, ih _ (k0 + 1) k hnd2 (by simpa using hk)]
          congr 1
          omega

theorem writeRows2_placement (col w : Nat) (p : Nat → Nat → α) :
    ∀ (ts : List Int) (b : Buffer α) (k0 k jo : Nat), ts.Nodup → k < ts.length → jo < w →
      (writeCells b (writeRows2 col w p ts k0)).data (ts.getD k 0) (col + jo) = p (k0 + k) jo := by
  intro ts
  induction ts with
  | nil => intro b k0 k jo _ hk _; simp at hk
  | cons t ts ih =>
      intro b k0 k jo hnd hk hjo
      have hstep : writeCells b (writeRows2 col w p (t :: ts) k0) =
          writeCells (writeCells b ((List.range w).map (fun j => ((t, col + j), p k0 j))))
            (writeRows2 col w p ts (k0 + 1)) := by
        rw [show writeRows2 col w p (t :: ts) k0 =
            ((List.range w).map (fun j => ((t, col + j), p k0 j))) ++
              writeRows2 col w p ts (k0 + 1) from rfl, writeCells_append]
      rcases List.nodup_cons.1 hnd with ⟨hnm, hnd2⟩
      match k with
      | 0 =>
          have hnot : (t, col + jo) ∉ (writeRows2 col w p ts (k0 + 1)).map (fun wv => wv.1) := by
            intro hmem
            exact hnm (writeRows2_keys col w p ts (k0 + 1) t (col + jo) hmem).1
          have hgd : ((t :: ts).getD 0 0) = t := rfl
          rw [hgd, hstep, writeCells_not_mem _ _ _ _ hnot]
          have hndk : (((List.range w).map (fun j => ((t, col + j), p k0 j))).map
              (fun pr => pr.1)).Nodup := by
            rw [List.map_map]
            refine List.Nodup.map ?_ (List.nodup_range w)
            intro a b hab
            simpa using congrArg Prod.snd hab
          have hmm : ((t, col + jo), p k0 jo) ∈
              (List.range w).map (fun j => ((t, col + j), p k0 j)) :=
            List.mem_map.2 ⟨jo, List.mem_range.2 hjo, rfl⟩
          have := writeCells_mem _ b ((t, col + jo), p k0 jo) hndk hmm
          simpa [List.getD] using this
      | k + 1 =>
          have hgd : ((t :: ts).getD (k + 1) 0) = ts.getD k 0 := by simp [List.getD]
          rw [hgd, hstep, ih _ (k0 + 1) k jo hnd2 (by simpa using hk) hjo]
          congr 1
          omega

/-- Keys written by `writeList` stay inside the (target rows) ×
`[col, col + width)` region. -/
theorem writeList_keys (ts : List Int) (col : Nat) (p : Preds α) (i : Int) (j : Nat)
    (h : (i, j) ∈ (writeList ts col p).map (fun wv => wv.1)) :
    i ∈ ts ∧ col ≤ j ∧ j < col + predsWidth p := by
  cases p with
  | one q =>
      rcases writeRows_keys col q ts 0 i j h with ⟨h1, h2⟩
      exact ⟨h1, by omega, by simp [predsWidth]; omega⟩
  | two q w =>
      exact writeRows2_keys col w q ts 0 i j h

/-- When `_assign_predictions` succeeds with resolved target rows `ts`, its
result is exactly the write list over `ts` applied to the buffer. -/
theorem assign_predictions_eq (pred : Buffer α) (p : Preds α) (tei : Idx) (col : Nat) (n : Int)
    (ts : List Int) (hts : assignTargets tei pred.rows n = some ts)
    (hsome : (assign_predictions pred p tei col n).isSome = true) :
    assign_predictions pred p tei col n = some (writeCells pred (writeList ts col p)) := by
  by_cases h : tei = Idx.all
  · subst h
    cases p with
    | one q =>
        have h2 : ((List.range pred.rows).map Int.ofNat) = ts := by
          simpa [assignTargets] using hts
        simp [assign_predictions, ← h2]
    | two q w => simp [assign_predictions] at hsome
  · simp [assign_predictions, if_neg h, hts]

theorem assignTargets_all (rows : Nat) (n : Int) :
    assignTargets Idx.all rows n = some ((List.range rows).map Int.ofNat) := rfl

theorem range_cast_getD (rows k : Nat) (hk : k < rows) :
    (((List.range rows).map Int.ofNat).getD k 0) = (k : Int) := by
  rw [List.getD_eq_getElem?_getD, List.getElem?_map, List.getElem?_range hk]
  rfl

theorem range_cast_nodup (rows : Nat) :
    ((List.range rows).map Int.ofNat).Nodup := by
  refine List.Nodup.map ?_ (List.nodup_range rows)
  intro a b hab
  exact Int.ofNat.inj hab

/-- C3.  Prediction writer region discipline: when `_assign_predictions`
resolves the fold spec `tei` (shifted by `r = n - pred.rows`) to the buffer
row list `ts`, (1) every buffer entry whose row is outside `ts` or whose
column is outside `[col, col + width)` is left unchanged — where the width
is 1 for a one-dimensional `p` and `p.shape[1]` for a two-dimensional `p` —
and (2) the targeted entries receive exactly the entries of `p`: the `k`-th
targeted row gets `p k` in column `col` (vector case) or row `k` of `p` in
columns `[col, col + w)` (matrix case). -/
theorem claim_assign_region (pred : Buffer α) (p : Preds α) (tei : Idx) (col : Nat) (n : Int)
    (ts : List Int)
    (hts : assignTargets tei pred.rows n = some ts)
    (hsome : (assign_predictions pred p tei col n).isSome = true) :
    (∀ (i : Int) (j : Nat), ¬(i ∈ ts ∧ col ≤ j ∧ j < col + predsWidth p) →
      (assign_predictions pred p tei col n).map (fun b => b.data i j) =
        some (pred.data i j)) ∧
    (ts.Nodup → ∀ (k jo : Nat), k < ts.length → jo < predsWidth p →
      (assign_predictions pred p tei col n).map (fun b => b.data (ts.getD k 0) (col + jo)) =
        some (predsVal p k jo)) := by
  have heq := assign_predictions_eq pred p tei col n ts hts hsome
  constructor
  · intro i j hout
    rw [heq, Option.map_some']
    refine congrArg some ?_
    apply writeCells_not_mem
    intro hmem
    exact hout (writeList_keys ts col p i j hmem)
  · intro hnd k jo hk hjo
    rw [heq, Option.map_some']
    refine congrArg some ?_
    cases p with
    | one q =>
        have hjo0 : jo = 0 := by simpa [predsWidth] using hjo
        subst hjo0
        simpa [predsVal] using writeRows_placement col q ts pred 0 k hnd hk
    | two q w =>
        simpa [predsVal] using writeRows2_placement col w q ts pred 0 k jo hnd hk hjo

/-- C3 witness: a 2-row buffer, a vector prediction into column 3 of the
row targeted by `Range(1, 2)` with no offset (`n = 2`); the entry at
`(0, 3)` (row outside the fold) is untouched and the entry at `(1, 3)`
receives `p 0`. -/
theorem claim_assign_region_witness :
    ((assign_predictions ⟨2, fun i j => i + j⟩ (Preds.one (fun k => (100 + k : Int)))
        (Idx.range 1 2) 3 2).map (fun b => b.data 0 3) = some ((0 : Int) + (3 : Nat))) ∧
    ((assign_predictions ⟨2, fun i j => i + j⟩ (Preds.one (fun k => (100 + k : Int)))
        (Idx.range 1 2) 3 2).map
          (fun b => b.data (([(1 : Int)]).getD 0 0) (3 + 0)) =
      some (predsVal (Preds.one (fun k => (100 + k : Int))) 0 0)) := by
  refine ⟨?_, ?_⟩
  · exact (claim_assign_region ⟨2, fun i j => i + j⟩ (Preds.one (fun k => (100 + k : Int)))
      (Idx.range 1 2) 3 2 [(1 : Int)] (by decide) (by decide)).1 0 3 (by decide)
  · exact (claim_assign_region ⟨2, fun i j => i + j⟩ (Preds.one (fun k => (100 + k : Int)))
      (Idx.range 1 2) 3 2 [(1 : Int)] (by decide) (by decide)).2 (by decide) 0 0
      (by decide) (by decide)

/-- C10.  With the sentinel `tei = 'all'`, `_assign_predictions` runs
`pred[:, col] = p`: every buffer row receives `p` in the single column
`col`, no other column is touched, the row offset `n` is ignored, and a
two-dimensional `p` is a broadcast error rather than a multi-column write —
the width-aware path is unreachable for the `'all'` sentinel. -/
theorem claim_assign_all (pred : Buffer α) (q : Nat → α) (p2 : Nat → Nat → α) (w col : Nat)
    (n n2 : Int) :
    (∀ (i : Int) (j : Nat), j ≠ col →
      (assign_predictions pred (.one q) .all col n).map (fun b => b.data i j) =
        some (pred.data i j)) ∧
    (∀ k : Nat, k < pred.rows →
      (assign_predictions pred (.one q) .all col n).map (fun b => b.data (k : Int) col) =
        some (q k)) ∧
    (assign_predictions pred (.one q) .all col n =
      assign_predictions pred (.one q) .all col n2) ∧
    (assign_predictions pred (.two p2 w) .all col n = none) := by
  have heq : assign_predictions pred (.one q) .all col n =
      some (writeCells pred
        (writeList ((List.range pred.rows).map Int.ofNat) col (.one q))) := by
    simp [assign_predictions]
  refine ⟨?_, ?_, rfl, by simp [assign_predictions]⟩
  · intro i j hj
    rw [heq, Option.map_some']
    refine congrArg some ?_
    apply writeCells_not_mem
    intro hmem
    have hk := writeList_keys _ col (.one q) i j hmem
    simp [predsWidth] at hk
    omega
  · intro k hk
    rw [heq, Option.map_some']
    refine congrArg some ?_
    have hlen : k < ((List.range pred.rows).map Int.ofNat).length := by
      simpa using hk
    have := writeRows_placement col q ((List.range pred.rows).map Int.ofNat)
      pred 0 k (range_cast_nodup pred.rows) hlen
    rwa [range_cast_getD pred.rows k hk, Nat.zero_add] at this

/-- C10 witness: on a 2-row buffer, writing the vector `k ↦ 100 + k` to
column 1 with `tei = 'all'`: column 0 is untouched, row 1 of column 1
receives 101, the result ignores `n`, and a matrix prediction errors. -/
theorem claim_assign_all_witness :
    ((assign_predictions ⟨2, fun i j => i + j⟩ (Preds.one (fun k => (100 + k : Int)))
        Idx.all 1 5).map (fun b => b.data 0 0) = some ((0 : Int) + (0 : Nat))) ∧
    ((assign_predictions ⟨2, fun i j => i + j⟩ (Preds.one (fun k => (100 + k : Int)))
        Idx.all 1 5).map (fun b => b.data ((1 : Nat) : Int) 1) = some (100 + 1 : Int)) := by
  refine ⟨?_, ?_⟩
  · exact (claim_assign_all ⟨2, fun i j => i + j⟩ (fun k => (100 + k : Int))
      (fun k j => (0 : Int)) 0 1 5 5).1 0 0 (by decide)
  · exact (claim_assign_all ⟨2, fun i j => i + j⟩ (fun k => (100 + k : Int))
      (fun k j => (0 : Int)) 0 1 5 5).2.1 1 (by decide)

/-! ### Lemmas about gathering and slicing -/

theorem intRange_nil (a b : Int) (h : b ≤ a) : intRange a b = [] := by
  have h0 : (b - a).toNat = 0 := by omega
  simp [intRange, h0]

theorem intRange_cons (a b : Int) (hab : a < b) :
    intRange a b = a :: intRange (a + 1) b := by
  have h1 : (b - a).toNat = (b - (a + 1)).toNat + 1 := by omega
  simp only [intRange, h1, List.range_succ_eq_map, List.map_cons, List.map_map]
  refine congrArg₂ List.cons (by simp) ?_
  refine List.map_congr_left ?_
  intro k _
  simp only [Function.comp_apply, Nat.succ_eq_add_one, Int.ofNat_eq_natCast]
  push_cast
  ring

theorem pySlice_nil (x : List α) (a b : Int) (h0 : 0 ≤ b) (h : b ≤ a) : pySlice x a b = [] := by
  have h0a : ¬(a < 0) := by omega
  have h0b : ¬(b < 0) := by omega
  simp only [pySlice, pySliceIdx, if_neg h0a, if_neg h0b]
  have hz : min b.toNat x.length - min a.toNat x.length = 0 := by omega
  simp [hz]

theorem pySlice_cons (x : List α) (a b : Int) (h0 : 0 ≤ a) (hab : a < b)
    (hb : b ≤ (x.length : Int)) :
    pySlice x a b = x.get ⟨a.toNat, by omega⟩ :: pySlice x (a + 1) b := by
  have hA : pySliceIdx x.length a = a.toNat := by unfold pySliceIdx; split <;> omega
  have hA1 : pySliceIdx x.length (a + 1) = a.toNat + 1 := by unfold pySliceIdx; split <;> omega
  have hB : pySliceIdx x.length b = b.toNat := by unfold pySliceIdx; split <;> omega
  simp only [pySlice, hA, hA1, hB]
  rw [List.drop_eq_getElem_cons (l := x) (n := a.toNat) (by omega)]
  have hsub : b.toNat - a.toNat = (b.toNat - (a.toNat + 1)) + 1 := by omega
  rw [hsub, List.take_succ_cons]
  simp

theorem pyGet_eq (x : List α) (a : Int) (h0 : 0 ≤ a) (h1 : a < (x.length : Int)) :
    pyGet x a = some (x.get ⟨a.toNat, by omega⟩) := by
  have hna : ¬(a < 0) := by omega
  simp only [pyGet, if_neg hna, dif_pos (And.intro h0 h1)]

theorem mapM_pyGet_intRange (x : List α) :
    ∀ (m : Nat) (a b : Int), (b - a).toNat ≤ m → 0 ≤ a → a ≤ b → b ≤ (x.length : Int) →
      (intRange a b).mapM (pyGet x) = some (pySlice x a b) := by
  intro m
  induction m with
  | zero =>
      intro a b hm h0 hab hb
      have hba : b ≤ a := by omega
      rw [intRange_nil a b hba, pySlice_nil x a b (by omega) hba]
      rfl
  | succ m ih =>
      intro a b hm h0 hab hb
      by_cases hba : b ≤ a
      · rw [intRange_nil a b hba, pySlice_nil x a b (by omega) hba]
        rfl
      · have hab2 : a < b := by omega
        rw [intRange_cons a b hab2, pySlice_cons x a b h0 hab2 hb, List.mapM_cons,
          pyGet_eq x a h0 (by omega), ih (a + 1) b (by omega) (by omega) (by omega) hb]
        rfl

theorem option_mapM_append (f : γ → Option δ) :
    ∀ (l1 : List γ) (l2 : List γ) (r1 r2 : List δ), l1.mapM f = some r1 →
      l2.mapM f = some r2 → (l1 ++ l2).mapM f = some (r1 ++ r2) := by
  intro l1
  induction l1 with
  | nil =>
      intro l2 r1 r2 h1 h2
      have h1t : (some ([] : List δ)) = some r1 := h1
      have hr : r1 = [] := (Option.some.inj h1t).symm
      subst hr
      simpa using h2
  | cons a l1 ih =>
      intro l2 r1 r2 h1 h2
      rw [List.mapM_cons] at h1
      match hfa : f a with
      | none => rw [hfa] at h1; simp at h1
      | some v =>
          rw [hfa] at h1
          match hl1 : l1.mapM f with
          | none => rw [hl1] at h1; simp at h1
          | some vs =>
              rw [hl1] at h1
              have h1t : (some (v :: vs)) = some r1 := h1
              have hr1 : r1 = v :: vs := (Option.some.inj h1t).symm
              subst hr1
              rw [List.cons_append, List.mapM_cons, hfa, ih l2 vs r2 hl1 h2]
              rfl

theorem mapM_pyGet_flatMap (x : List α) (r : Int) :
    ∀ (l : List (Int × Int)),
      (∀ iv ∈ l, 0 ≤ iv.1 - r ∧ iv.1 ≤ iv.2 ∧ iv.2 - r ≤ (x.length : Int)) →
      ((l.flatMap (fun iv => intRange (iv.1 - r) (iv.2 - r))).mapM (pyGet x)) =
        some (l.flatMap (fun iv => pySlice x (iv.1 - r) (iv.2 - r))) := by
  intro l
  induction l with
  | nil => intro _; rfl
  | cons iv l ih =>
      intro hv
      have h1 := hv iv (List.mem_cons_self iv l)
      have hseg := mapM_pyGet_intRange x ((iv.2 - r) - (iv.1 - r)).toNat (iv.1 - r) (iv.2 - r)
        (le_refl _) h1.1 (by omega) h1.2.2
      have hrest := ih (fun jv hjv => hv jv (List.mem_cons_of_mem iv hjv))
      rw [List.flatMap_cons, List.flatMap_cons]
      exact option_mapM_append (pyGet x) _ _ _ _ hseg hrest

/-! ### Claims about index addressing (`_slice_array`) -/

/-- C1 (code evaluation at the failing input): for the single-interval
scattered spec `((1, 3),)` with offset 0, `_slice_array` gathers via an
explicit index list — the always-copying advanced-indexing path — instead
of collapsing to the basic slice `[1, 3)` that would return a view.  The
selected rows are correct, the addressing path is not: the source tests
`len(idx[0]) > 1` (the length of the first interval pair, which is always
2) where its own comment describes collapsing `((a, b),)` when the spec
has a single interval (`len(idx) > 1`), as the sibling writer
`_assign_predictions` does. -/
theorem claim_single_scattered_copies :
    slice_array [10, 20, 30, 40, 50] (none : Option (List Int)) (.scattered [(1, 3)]) 0 =
      some ([20, 30], none, .copy) := by decide

/-- C2 counterexample: an empty interval list is falsy in Python, so
`_slice_array` skips slicing entirely and returns the input unchanged —
3 rows, not 0 rows as the claim states. -/
theorem claim_empty_idx_counterexample :
    slice_array [1, 2, 3] (none : Option (List Int)) (.scattered []) 0 =
      some ([1, 2, 3], none, .noop) ∧ ([1, 2, 3] : List Int).length ≠ 0 := by decide

/-- C2 as amended: `_slice_array` returns its input unchanged (no slicing,
for every `x` and optional `y`) for `idx = None`, for the sentinel
`'all'`, and also for an empty interval list — the empty list behaves as
"all rows", not "no rows". -/
theorem claim_idx_sentinels (x : List α) (y : Option (List β)) (r : Int) :
    slice_array x y .nothing r = some (x, y, .noop) ∧
    slice_array x y .all r = some (x, y, .noop) ∧
    slice_array x y (.scattered []) r = some (x, y, .noop) :=
  ⟨rfl, rfl, rfl⟩

/-- C6.  For a scattered spec with more than one interval (each interval
in bounds after shifting by `r`), `_slice_array` gathers exactly the
concatenation, in interval order, of the rows `[t0 - r, t1 - r)` of each
interval — equivalently, the concatenation of the basic slices of the
input — and this path always copies. -/
theorem slice_array_scattered_cons (x : List α) (y : Option (List β)) (iv0 : Int × Int)
    (rest : List (Int × Int)) (r : Int) :
    slice_array x y (.scattered (iv0 :: rest)) r =
      (match ((iv0 :: rest).flatMap (fun iv => intRange (iv.1 - r) (iv.2 - r))).mapM (pyGet x),
          y with
        | none, _ => none
        | some x1, none => some (x1, none, .copy)
        | some x1, some ys =>
            match ((iv0 :: rest).flatMap (fun iv => intRange (iv.1 - r) (iv.2 - r))).mapM
                (pyGet ys) with
            | none => none
            | some ys1 => some (x1, some ys1, .copy)) := rfl

theorem claim_scattered_gather (x : List α) (l : List (Int × Int)) (r : Int)
    (hlen : 1 < l.length)
    (hval : ∀ iv ∈ l, 0 ≤ iv.1 - r ∧ iv.1 ≤ iv.2 ∧ iv.2 - r ≤ (x.length : Int)) :
    slice_array x (none : Option (List α)) (.scattered l) r =
      some (l.flatMap (fun iv => pySlice x (iv.1 - r) (iv.2 - r)), none, .copy) := by
  rcases l with _ | ⟨iv0, rest⟩
  · simp at hlen
  · have hm := mapM_pyGet_flatMap x r (iv0 :: rest) hval
    rw [slice_array_scattered_cons, hm]

/-- C6 witness: two intervals `(0, 2)` and `(3, 5)` on a 5-row input with
offset 0 gather rows `[0, 2) ++ [3, 5)`. -/
theorem claim_scattered_gather_witness :
    slice_array ([10, 20, 30, 40, 50] : List Int) (none : Option (List Int))
        (.scattered [(0, 2), (3, 5)]) 0 =
      some ((([(0, 2), (3, 5)] : List (Int × Int)).flatMap
        (fun iv => pySlice ([10, 20, 30, 40, 50] : List Int) (iv.1 - 0) (iv.2 - 0))),
        none, .copy) :=
  claim_scattered_gather ([10, 20, 30, 40, 50] : List Int) [(0, 2), (3, 5)] 0 (by decide)
    (by decide)

/-! ### Lemmas about the cache handoff wait -/

/-- With the key never available, any terminating run of the wait ends in
the cache-timeout error, with exactly one more warning than already emitted
when the raise flag was still unset (and no new warning when set). -/
theorem loadLoop_never_result (path : String) (s lim : Nat) :
    ∀ (fuel t e w : Nat) (ro : Bool) (r : LoadResult),
      loadLoop (fun _ => false) path s lim fuel t e w ro = some r →
      ∃ T, r = .timeout (cacheTimeoutMsg path lim) T (w + (if ro then 0 else 1)) := by
  intro fuel
  induction fuel with
  | zero => intro t e w ro r h; simp [loadLoop] at h
  | succ fuel ih =>
      intro t e w ro r h
      have h2 : (if lim < e + s then
            (if ro = true then
              some (LoadResult.timeout (cacheTimeoutMsg path lim) (t + s) w)
            else loadLoop (fun _ => false) path s lim fuel (t + s) 0 (w + 1) true)
          else loadLoop (fun _ => false) path s lim fuel (t + s) (e + s) w ro) = some r := h
      by_cases hb : lim < e + s
      · rw [if_pos hb] at h2
        cases ro with
        | true =>
            refine ⟨t + s, ?_⟩
            rw [if_pos rfl] at h2
            simpa using (Option.some.inj h2).symm
        | false =>
            rw [if_neg (by simp)] at h2
            obtain ⟨T, hT⟩ := ih (t + s) 0 (w + 1) true r h2
            exact ⟨T, by simpa using hT⟩
      · rw [if_neg hb] at h2
        exact ih (t + s) (e + s) w ro r h2

/-- With the key never available and the raise flag set, the wait reaches
the timeout error with unchanged warning count, at a clock past `lim`. -/
theorem loadLoop_never_timeout_true (path : String) (s lim : Nat) (hs : 1 ≤ s) :
    ∀ (m e t w : Nat), lim + 1 - e ≤ m → e ≤ t →
      ∃ fuel T, loadLoop (fun _ => false) path s lim fuel t e w true =
        some (.timeout (cacheTimeoutMsg path lim) T w) ∧ lim < T := by
  intro m
  induction m with
  | zero =>
      intro e t w hm het
      have hb : lim < e + s := by omega
      exact ⟨1, t + s, by simp [loadLoop, hb], by omega⟩
  | succ m ih =>
      intro e t w hm het
      by_cases hb : lim < e + s
      · exact ⟨1, t + s, by simp [loadLoop, hb], by omega⟩
      · obtain ⟨fuel, T, hrun, hT⟩ := ih (e + s) (t + s) w (by omega) (by omega)
        exact ⟨fuel + 1, T, by simp [loadLoop, hb, hrun], hT⟩

/-- With the key never available and the raise flag initially unset, the
wait reaches the timeout error with exactly one warning emitted, at a clock
past `lim`. -/
theorem loadLoop_never_timeout_false (path : String) (s lim : Nat) (hs : 1 ≤ s) :
    ∀ (m e t w : Nat), lim + 1 - e ≤ m → e ≤ t →
      ∃ fuel T, loadLoop (fun _ => false) path s lim fuel t e w false =
        some (.timeout (cacheTimeoutMsg path lim) T (w + 1)) ∧ lim < T := by
  intro m
  induction m with
  | zero =>
      intro e t w hm het
      have hb : lim < e + s := by omega
      obtain ⟨fuel, T, hrun, hT⟩ := loadLoop_never_timeout_true path s lim hs (lim + 1) 0
        (t + s) (w + 1) (by omega) (by omega)
      exact ⟨fuel + 1, T, by simp [loadLoop, hb, hrun], hT⟩
  | succ m ih =>
      intro e t w hm het
      by_cases hb : lim < e + s
      · obtain ⟨fuel, T, hrun, hT⟩ := loadLoop_never_timeout_true path s lim hs (lim + 1) 0
          (t + s) (w + 1) (by omega) (by omega)
        exact ⟨fuel + 1, T, by simp [loadLoop, hb, hrun], hT⟩
      · obtain ⟨fuel, T, hrun, hT⟩ := ih (e + s) (t + s) w (by omega) (by omega)
        exact ⟨fuel + 1, T, by simp [loadLoop, hb, hrun], hT⟩

/-- If the key becomes available at time `a` with `a + s ≤ lim`, the wait
in raise mode succeeds with no warnings after a total wait of at least
`a`. -/
theorem loadLoop_avail_success (path : String) (s lim a : Nat) (hs : 1 ≤ s)
    (ha : a + s ≤ lim) :
    ∀ (m t : Nat), a - t ≤ m →
      ∃ fuel wt, loadLoop (fun u => decide (a ≤ u)) path s lim fuel t t 0 true =
        some (.success wt 0) ∧ a ≤ wt := by
  intro m
  induction m with
  | zero =>
      intro t hm
      have hat : a ≤ t := by omega
      exact ⟨1, t, by simp [loadLoop, hat], hat⟩
  | succ m ih =>
      intro t hm
      by_cases hat : a ≤ t
      · exact ⟨1, t, by simp [loadLoop, hat], hat⟩
      · have hb : ¬(lim < t + s) := by omega
        obtain ⟨fuel, wt, hrun, hwt⟩ := ih (t + s) (by omega)
        exact ⟨fuel + 1, wt, by simp [loadLoop, hat, hb, hrun], hwt⟩

/-- C4.  Warn-mode grace period of `_load_trans` with a key that never
becomes available: (1) at the first breach of `lim` the loop emits one
warning, flips its local raise flag to true, and resets the elapsed-time
counter (the iteration literally continues in that state); (2) every
terminating run started in warn mode ends in the cache-timeout error with
exactly one warning — one grace period, never two; (3) such a run does
terminate, with the error raised on the second breach (clock past `lim`
after the reset). -/
theorem claim_grace_period (path : String) (s lim : Nat) (hs : 1 ≤ s) :
    (∀ (fuel t e w : Nat), lim < e + s →
      loadLoop (fun _ => false) path s lim (fuel + 1) t e w false =
        loadLoop (fun _ => false) path s lim fuel (t + s) 0 (w + 1) true) ∧
    (∀ (fuel : Nat) (r : LoadResult),
      load_trans (fun _ => false) path s lim false fuel = some r →
      ∃ T, r = .timeout (cacheTimeoutMsg path lim) T 1) ∧
    (∃ fuel T, load_trans (fun _ => false) path s lim false fuel =
      some (.timeout (cacheTimeoutMsg path lim) T 1) ∧ lim < T) := by
  refine ⟨?_, ?_, ?_⟩
  · intro fuel t e w hb
    simp [loadLoop, hb]
  · intro fuel r h
    obtain ⟨T, hT⟩ := loadLoop_never_result path s lim fuel 0 0 0 false r h
    exact ⟨T, by simpa using hT⟩
  · obtain ⟨fuel, T, hrun, hT⟩ := loadLoop_never_timeout_false path s lim hs (lim + 1) 0 0 0
      (by omega) (by omega)
    exact ⟨fuel, T, by simpa [load_trans] using hrun, hT⟩

/-- C4 witness at `s = 1`, `lim = 2`: the first-breach step rewrites the
state to (flag set, counter reset, one warning), and the concrete run with
fuel 6 ends in the timeout error carrying exactly one warning. -/
theorem claim_grace_period_witness :
    (loadLoop (fun _ => false) "key" 1 2 6 0 2 0 false =
      loadLoop (fun _ => false) "key" 1 2 5 1 0 1 true) ∧
    (∃ T, LoadResult.timeout (cacheTimeoutMsg "key" 2) 6 1 =
      .timeout (cacheTimeoutMsg "key" 2) T 1) ∧
    (∃ fuel T, load_trans (fun _ => false) "key" 1 2 false fuel =
      some (.timeout (cacheTimeoutMsg "key" 2) T 1) ∧ 2 < T) := by
  have h := claim_grace_period "key" 1 2 (by decide)
  exact ⟨h.1 5 0 2 0 (by decide),
    h.2.1 6 (.timeout (cacheTimeoutMsg "key" 2) 6 1) rfl, h.2.2⟩

/-- C5 as amended.  Raise-mode cache handoff wait: (1) if the key becomes
available at time `a` with `a + s ≤ lim` (rather than merely `a < lim`:
the poll granularity means a key appearing inside the final interval
before the deadline can still time out), the load succeeds with no
warnings and total wait at least `a`; (2) if the key never becomes
available, the wait fails with the cache-timeout error — whose message
names the missing key path and the wait ceiling and gives remediation
guidance (`cacheTimeoutMsg`) — at elapsed time strictly past `lim`. -/
theorem claim_wait_success_or_timeout (path : String) (s lim a : Nat) (hs : 1 ≤ s)
    (ha : a + s ≤ lim) :
    (∃ fuel wt, load_trans (fun u => decide (a ≤ u)) path s lim true fuel =
      some (.success wt 0) ∧ a ≤ wt) ∧
    (∃ fuel T, load_trans (fun _ => false) path s lim true fuel =
      some (.timeout (cacheTimeoutMsg path lim) T 0) ∧ lim < T) := by
  constructor
  · obtain ⟨fuel, wt, hrun, hwt⟩ := loadLoop_avail_success path s lim a hs ha a 0 (by omega)
    exact ⟨fuel, wt, by simpa [load_trans] using hrun, hwt⟩
  · obtain ⟨fuel, T, hrun, hT⟩ := loadLoop_never_timeout_true path s lim hs (lim + 1) 0 0 0
      (by omega) (by omega)
    exact ⟨fuel, T, by simpa [load_trans] using hrun, hT⟩

/-- C5 witness at `s = 1`, `lim = 3`, availability time `a = 2`. -/
theorem claim_wait_success_or_timeout_witness :
    (∃ fuel wt, load_trans (fun u => decide (2 ≤ u)) "key" 1 3 true fuel =
      some (.success wt 0) ∧ 2 ≤ wt) ∧
    (∃ fuel T, load_trans (fun _ => false) "key" 1 3 true fuel =
      some (.timeout (cacheTimeoutMsg "key" 3) T 0) ∧ 3 < T) :=
  claim_wait_success_or_timeout "key" 1 3 2 (by decide) (by decide)

/-- C5 counterexample to the original claim: with retry interval `s = 3`
and ceiling `lim = 5`, a key that becomes available at time `4 < 5` still
ends in the cache-timeout error in raise mode — the last poll before the
deadline happens at time 3, and the breach test at time 6 fires before the
key is re-checked.  So "available after `t < lim` implies eventual
success" is false as stated. -/
theorem claim_wait_boundary_counterexample :
    4 < 5 ∧ load_trans (fun u => decide (4 ≤ u)) "key" 3 5 true 2 =
      some (.timeout (cacheTimeoutMsg "key" 5) 6 0) := ⟨by decide, rfl⟩

/-! ### Lemmas and claims about scoring and assembly -/

theorem option_mapM_mem {g : γ → Option δ} :
    ∀ {l : List γ} {l2 : List δ}, l.mapM g = some l2 → ∀ b ∈ l2, ∃ a ∈ l, g a = some b := by
  intro l
  induction l with
  | nil =>
      intro l2 h b hb
      have ht : (some ([] : List δ)) = some l2 := h
      rw [← Option.some.inj ht] at hb
      cases hb
  | cons a l ih =>
      intro l2 h b hb
      rw [List.mapM_cons] at h
      match hga : g a with
      | none => rw [hga] at h; simp at h
      | some v =>
          rw [hga] at h
          match hl : l.mapM g with
          | none => rw [hl] at h; simp at h
          | some vs =>
              rw [hl] at h
              have ht : (some (v :: vs)) = some l2 := h
              rw [← Option.some.inj ht] at hb
              rcases List.mem_cons.1 hb with rfl | hb2
              · exact ⟨a, List.mem_cons_self a l, hga⟩
              · obtain ⟨a2, ha2, hga2⟩ := ih hl b hb2
                exact ⟨a2, List.mem_cons_of_mem a ha2, hga2⟩

theorem option_mapM_singleton (f : γ → Option δ) (a : γ) :
    ([a].mapM f) = (f a).map (fun v => [v]) := by
  cases hfa : f a <;> simp [List.mapM, List.mapM.loop, hfa]

/-- Assembling a configuration with one case holding one instance reads
exactly that instance's bundle. -/
theorem assemble_e_single (dir : String) (cache : Cache τ ε) (case : Option String)
    (nm : String) (b : EstBundle ε) (hload : cache.efile (eKey dir case nm) = some b) :
    assemble_e dir cache [(case, [nm])] =
      some ([(case, (b.name, b.est, b.idx))], [(scoreLabel case nm, b.score)]) := by
  unfold assemble_e
  simp only [option_mapM_singleton, hload]
  rfl

/-- C7.  When the scorer raises during an estimator-fit task, the failure
is recovered locally: the score in the cached bundle is absent (`none`), a
single warning naming the layer and the instance is recorded, the fitted
estimator is still written to the cache unchanged, and assembling from
that cache still lists the estimator in `estimators_` (with its score
entry recorded as absent). -/
theorem claim_scorer_failure_recovered (dir : String) (case : Option String)
    (instName : String) (inst : ε) (tei : Idx) (col : Nat)
    (sc : ν → ν → Except String Int) (name : String) (y p : ν) (err : String)
    (hraise : sc y p = Except.error err) :
    ((fit_est_save dir case instName inst tei col (some sc) name y p).1.2.score = none) ∧
    ((fit_est_save dir case instName inst tei col (some sc) name y p).2 =
      [⟨name, instName, err⟩]) ∧
    ((fit_est_save dir case instName inst tei col (some sc) name y p).1.2.est = inst) ∧
    (assemble_e dir
      { tfile := fun _ => (none : Option τ),
        efile := fun k =>
          if k = (fit_est_save dir case instName inst tei col (some sc) name y p).1.1
          then some (fit_est_save dir case instName inst tei col (some sc) name y p).1.2
          else none }
      [(case, [instName])] =
      some ([(case, (instName, inst, (some tei, col)))],
        [(scoreLabel case instName, none)])) := by
  refine ⟨?_, ?_, ?_, ?_⟩
  · simp [fit_est_save, score_predictions, hraise]
  · simp [fit_est_save, score_predictions, hraise]
  · simp [fit_est_save]
  · have hload :
        (Cache.mk (fun _ => (none : Option τ))
          (fun k =>
            if k = (fit_est_save dir case instName inst tei col (some sc) name y p).1.1
            then some (fit_est_save dir case instName inst tei col (some sc) name y p).1.2
            else none)).efile (eKey dir case instName) =
          some ⟨instName, inst, (some tei, col), none⟩ := by
      simp [fit_est_save, score_predictions, hraise]
    rw [assemble_e_single dir _ case instName _ hload]

/-- C7 witness: a scorer that raises `"boom"` on the concrete task; the
bundle keeps the estimator `7` with an absent score, one warning is
recorded, and assembly still lists the estimator. -/
theorem claim_scorer_failure_recovered_witness :
    ((fit_est_save "d" (some "c") "e1" (7 : Nat) (Idx.range 0 1) 0
        (some (fun _ _ => Except.error "boom")) "layer" (0 : Nat) 0).1.2.score = none) ∧
    ((fit_est_save "d" (some "c") "e1" (7 : Nat) (Idx.range 0 1) 0
        (some (fun _ _ => Except.error "boom")) "layer" (0 : Nat) 0).2 =
      [⟨"layer", "e1", "boom"⟩]) ∧
    ((fit_est_save "d" (some "c") "e1" (7 : Nat) (Idx.range 0 1) 0
        (some (fun _ _ => Except.error "boom")) "layer" (0 : Nat) 0).1.2.est = 7) ∧
    (assemble_e "d"
      { tfile := fun _ => (none : Option Nat),
        efile := fun k =>
          if k = (fit_est_save "d" (some "c") "e1" (7 : Nat) (Idx.range 0 1) 0
              (some (fun _ _ => Except.error "boom")) "layer" (0 : Nat) 0).1.1
          then some (fit_est_save "d" (some "c") "e1" (7 : Nat) (Idx.range 0 1) 0
              (some (fun _ _ => Except.error "boom")) "layer" (0 : Nat) 0).1.2
          else none }
      [(some "c", ["e1"])] =
      some ([(some "c", ("e1", 7, (some (Idx.range 0 1), 0)))],
        [(scoreLabel (some "c") "e1", none)])) :=
  claim_scorer_failure_recovered "d" (some "c") "e1" 7 (Idx.range 0 1) 0
    (fun _ _ => Except.error "boom") "layer" 0 0 "boom" rfl

/-- C8.  The assembler installs scores exactly when the layer has a scorer
and the pass is not a full-data pass (otherwise the previous `scores_` is
kept), and every accumulated score entry is keyed by the composite label
`"<case>___<name>"`, or `"___<name>"` when the case is unset. -/
theorem claim_assemble_scores (dir : String) (cache : Cache τ ε)
    (tlist : Option (List (Option String))) (elist : List (Option String × List String))
    (sp : Bool) (cls : String) (bs : List (String × Option Int) → σt)
    (st st2 : LayerState τ ε σt)
    (ests : List (Option String × (String × ε × (Option Idx × Nat))))
    (scs : List (String × Option Int))
    (hE : assemble_e dir cache elist = some (ests, scs))
    (hA : assemble dir cache tlist elist sp cls bs st = some st2) :
    ((sp = true ∧ cls ≠ "full") → st2.scores_ = some (bs scs)) ∧
    (¬(sp = true ∧ cls ≠ "full") → st2.scores_ = st.scores_) ∧
    (∀ (lbl : String) (v : Option Int), (lbl, v) ∈ scs →
      ∃ ce, ce ∈ elist ∧ ∃ nm, nm ∈ ce.2 ∧
        lbl = (match ce.1 with
               | some c => c ++ "___" ++ nm
               | none => "___" ++ nm)) := by
  unfold assemble at hA
  match hT : assemble_t dir cache tlist with
  | none => rw [hT] at hA; simp at hA
  | some pp =>
      rw [hT, hE] at hA
      have hA2 : some (LayerState.mk pp ests
          (if sp = true ∧ cls ≠ "full" then some (bs scs) else st.scores_)) = some st2 := hA
      have hst2 : st2 = LayerState.mk pp ests
          (if sp = true ∧ cls ≠ "full" then some (bs scs) else st.scores_) :=
        (Option.some.inj hA2).symm
      subst hst2
      refine ⟨fun hc => by simp [hc], fun hc => by simp [hc], ?_⟩
      unfold assemble_e at hE
      match hM : elist.mapM (fun ce => ce.2.mapM (fun nm =>
          (cache.efile (eKey dir ce.1 nm)).map
            (fun b => ((ce.1, (b.name, b.est, b.idx)), (scoreLabel ce.1 nm, b.score))))) with
      | none => rw [hM] at hE; simp at hE
      | some parts =>
          rw [hM] at hE
          have hE2 : some (parts.flatten.map (fun pr => pr.1),
              parts.flatten.map (fun pr => pr.2)) = some (ests, scs) := hE
          have hscs : scs = parts.flatten.map (fun pr => pr.2) :=
            (congrArg Prod.snd (Option.some.inj hE2)).symm
          intro lbl v hmem
          rw [hscs] at hmem
          obtain ⟨pr, hpr, hpr2⟩ := List.mem_map.1 hmem
          obtain ⟨part, hpart, hprin⟩ := List.mem_flatten.1 hpr
          obtain ⟨ce, hce, hcePart⟩ := option_mapM_mem hM part hpart
          obtain ⟨nm, hnm, hnmPr⟩ := option_mapM_mem hcePart pr hprin
          match hload : cache.efile (eKey dir ce.1 nm) with
          | none => rw [hload] at hnmPr; simp at hnmPr
          | some b =>
              rw [hload] at hnmPr
              have hprv : pr = ((ce.1, (b.name, b.est, b.idx)),
                  (scoreLabel ce.1 nm, b.score)) := (Option.some.inj hnmPr).symm
              refine ⟨ce, hce, nm, hnm, ?_⟩
              have hlbl : lbl = scoreLabel ce.1 nm := by
                have := hpr2
                rw [hprv] at this
                exact (congrArg Prod.fst this).symm
              rw [hlbl]
              cases hc : ce.1 with
              | none => rfl
              | some c => rfl

/-- C8 witness: one case `"c"` with one instance `"e1"` whose bundle is in
the cache; a scorer is present and the pass is not full-data, so the built
scores are installed, and the single score label is `"c___e1"`. -/
theorem claim_assemble_scores_witness :
    (((true = true ∧ "fit" ≠ "full") →
      (LayerState.mk (some [(some "c", (0 : Nat))])
        [(some "c", ("e1", (7 : Nat), (some (Idx.range 0 1), 0)))]
        (some (1 : Nat))).scores_ = some 1) ∧
    (¬(true = true ∧ "fit" ≠ "full") →
      (LayerState.mk (some [(some "c", (0 : Nat))])
        [(some "c", ("e1", (7 : Nat), (some (Idx.range 0 1), 0)))]
        (some (1 : Nat))).scores_ = none) ∧
    (∀ (lbl : String) (v : Option Int),
      (lbl, v) ∈ ([("c___e1", none)] : List (String × Option Int)) →
      ∃ ce, ce ∈ ([(some "c", ["e1"])] : List (Option String × List String)) ∧
        ∃ nm, nm ∈ ce.2 ∧
          lbl = (match ce.1 with
                 | some c => c ++ "___" ++ nm
                 | none => "___" ++ nm))) :=
  claim_assemble_scores "d"
    { tfile := fun _ => some (0 : Nat),
      efile := fun _ => some ⟨"e1", (7 : Nat), (some (Idx.range 0 1), 0), none⟩ }
    (some [some "c"]) [(some "c", ["e1"])] true "fit" (fun l => l.length)
    (LayerState.mk none [] none) _ _ _ rfl rfl

/-- C9.  Assembly is idempotent over a fixed cache: if one assembler pass
over the cache produces a layer state, running the assembler again from
that state reproduces exactly the same state (`preprocessing_`,
`estimators_` and `scores_` included). -/
theorem claim_assemble_idempotent (dir : String) (cache : Cache τ ε)
    (tlist : Option (List (Option String))) (elist : List (Option String × List String))
    (sp : Bool) (cls : String) (bs : List (String × Option Int) → σt)
    (st st2 : LayerState τ ε σt)
    (hA : assemble dir cache tlist elist sp cls bs st = some st2) :
    assemble dir cache tlist elist sp cls bs st2 = some st2 := by
  unfold assemble at hA ⊢
  match hT : assemble_t dir cache tlist with
  | none => rw [hT] at hA; simp at hA
  | some pp =>
      match hEE : assemble_e dir cache elist with
      | none => rw [hT, hEE] at hA; simp at hA
      | some es =>
          rw [hT, hEE] at hA
          have hA2 : some (LayerState.mk pp es.1
              (if sp = true ∧ cls ≠ "full" then some (bs es.2) else st.scores_)) =
              some st2 := hA
          have hst2 : st2 = LayerState.mk pp es.1
              (if sp = true ∧ cls ≠ "full" then some (bs es.2) else st.scores_) :=
            (Option.some.inj hA2).symm
          subst hst2
          by_cases hc : sp = true ∧ cls ≠ "full"
          · simp [hc]
          · simp [hc]

/-- C9 witness: running the assembler from the state it produced over a
one-case, one-estimator cache reproduces that state. -/
theorem claim_assemble_idempotent_witness :
    assemble "d"
      { tfile := fun _ => some (0 : Nat),
        efile := fun _ => some ⟨"e1", (7 : Nat), (some (Idx.range 0 1), 0), none⟩ }
      (some [some "c"]) [(some "c", ["e1"])] true "fit"
      (fun l => (l.length : Nat))
      (LayerState.mk (some [(some "c", (0 : Nat))])
        [(some "c", ("e1", (7 : Nat), (some (Idx.range 0 1), 0)))] (some (1 : Nat))) =
      some (LayerState.mk (some [(some "c", (0 : Nat))])
        [(some "c", ("e1", (7 : Nat), (some (Idx.range 0 1), 0)))] (some (1 : Nat))) :=
  claim_assemble_idempotent "d"
    { tfile := fun _ => some (0 : Nat),
      efile := fun _ => some ⟨"e1", (7 : Nat), (some (Idx.range 0 1), 0), none⟩ }
    (some [some "c"]) [(some "c", ["e1"])] true "fit" (fun l => (l.length : Nat))
    (LayerState.mk none [] none) _ (by decide)

end MLens
